import Mathlib

/-!
Verification of the sparsebak incremental backup engine (src/sparsebak.py)
against its natural-language specification.  Python integer arithmetic is
embedded as Nat (sizes, addresses, byte values) or Int (signed quantities),
byte buffers as `List Nat`, the mmap-backed delta bitmap as a function from
byte index to byte value, and fallible code as `Except`/`Option`.
-/

namespace Sparsebak

/-- Disk block size constant `bs = 512` (src line 1881). -/
def bs : Nat := 512

/-- LVM minimum block factor `lvm_block_factor = 128` (src line 1883). -/
def lvm_block_factor : Nat := 128

/-- Default archive chunk size `bkchunksize = 1 * lvm_block_factor * bs`
(64 KiB, src line 1885). -/
def bkchunksize : Nat := 1 * lvm_block_factor * bs

/-- Address space bound `max_address = 0xffffffffffffffff` (src line 1887). -/
def max_address : Nat := 0xffffffffffffffff

/-- Last chunk address function (src lines 782-783):
`last_chunk_addr(volsize, chunksize) = (volsize-1) - ((volsize-1) % chunksize)`.
Python subtraction on these operands never goes negative, so Nat
truncated subtraction agrees (volsize >= 1 in all call sites; at
volsize = 0 both give 0). -/
def last_chunk_addr (volsize chunksize : Nat) : Nat :=
  (volsize - 1) - ((volsize - 1) % chunksize)

/-- Delta-map size in bytes, `Volume.mapsize` (src lines 192-195):
`(volume_size // self.archive.chunksize // 8) + 1`, i.e. floor division.
The Python method defaults `volume_size` to the volume's current size when
the argument is falsy; here the effective size is passed explicitly. -/
def mapsize (volume_size chunksize : Nat) : Nat :=
  volume_size / chunksize / 8 + 1

/-- Send-all threshold computation in `send_volume` (src lines 842-857).
`send_all` is `len(vol.sessions) == 0`; `prior_size` is `vol.volsize`
(the prior session's size) and `snap2size` the current snapshot size.
The code sets `sendall_addr = 0` for a first session, otherwise
`snap2size + 1`, and then raises it to
`next_chunk_addr = last_chunk_addr(prior_size, chunksize) + chunksize`
only when the volume did not shrink and `snap2size - 1 >= next_chunk_addr`. -/
def send_all_from (send_all : Bool) (prior_size snap2size chunksize : Nat) : Nat :=
  if send_all then 0
  else
    let next_chunk_addr := last_chunk_addr prior_size chunksize + chunksize
    if prior_size > snap2size then snap2size + 1
    else if snap2size - 1 ≥ next_chunk_addr then next_chunk_addr
    else snap2size + 1

/-- Session-index width in bytes used by the packed dedup indexes,
`ses_w = 2` (src lines 1163, 1245). -/
def ses_w : Nat := 2

/-- Session-list truncation performed by `init_dedup_index4` (src line 1165)
and `init_dedup_index5` (src line 1247):
`sessions = aset.allsessions[:2**(ses_w*8)-(len(aset.vols))-1]`. -/
def truncate_sessions {α : Type} (allsessions : List α) (nvols : Nat) : List α :=
  allsessions.take (2 ^ (ses_w * 8) - nvols - 1)

/-- Chunk-factor handling in `arch_init` (src lines 356-363).  The Python
code runs `if options.chfactor:` (so a chunk factor of 0 is falsy and the
whole block is skipped, leaving the default chunk size), then sets
`chunksize = chfactor * bkchunksize` and errors via `x_it` only when
`chunksize > 16 * 1024 * 1024`; afterwards `aset.save_conf()` persists the
configuration.  `.ok cs` means the configuration is saved with chunk size
`cs`; `.error` means the program exits without saving.  The chunk factor
is a Python int, hence `Int` here. -/
def arch_init_chunksize (chfactor : Option Int) : Except String Int :=
  match chfactor with
  | none => .ok (bkchunksize : Int)
  | some n =>
    if n = 0 then .ok (bkchunksize : Int)
    else
      let chunksize : Int := n * (bkchunksize : Int)
      if chunksize > 16 * 1024 * 1024 then .error "Requested chunk size not supported."
      else .ok chunksize

/-! Helper lemmas about `last_chunk_addr`. -/

/-- A positive volume size never exceeds its last chunk address plus one
chunk: `p <= last_chunk_addr p C + C`. -/
theorem self_le_last_chunk_addr_add (p C : Nat) (hC : 0 < C) :
    p ≤ last_chunk_addr p C + C := by
  have h1 := Nat.div_add_mod (p - 1) C
  have h2 := Nat.mod_lt (p - 1) hC
  simp only [last_chunk_addr]
  omega

/-- Unfolding of `last_chunk_addr` as a multiple of the chunk size. -/
theorem last_chunk_addr_eq_mul (v C : Nat) :
    last_chunk_addr v C = C * ((v - 1) / C) := by
  have h := Nat.div_add_mod (v - 1) C
  simp only [last_chunk_addr]
  omega

/-- C4, counterexample.  The claim states
`mapsize = ceil(volsize / chunksize / 8) + 1`; at `volsize = chunksize
= 65536` the code computes `65536 // 65536 // 8 + 1 = 1` while the
ceiling formula `ceil(65536 / (65536*8)) + 1 = 2`. -/
theorem mapsize_not_ceil :
    mapsize 65536 65536 = 1 ∧
    (65536 + 65536 * 8 - 1) / (65536 * 8) + 1 = 2 ∧
    mapsize 65536 65536 ≠ (65536 + 65536 * 8 - 1) / (65536 * 8) + 1 := by
  decide

/-- C4, amended: the Delta Map file size computed by `Volume.mapsize` equals
`floor(volsize / chunksize / 8) + 1` bytes, which provides a map byte for
every chunk index up to `volsize / chunksize`. -/
theorem mapsize_floor_and_covers (v C k : Nat) (hk : k ≤ v / C) :
    mapsize v C = v / C / 8 + 1 ∧ k / 8 < mapsize v C := by
  refine ⟨rfl, ?_⟩
  have h := Nat.div_le_div_right (c := 8) hk
  simp only [mapsize]
  omega

/-- C4 witness: concrete instance of `mapsize_floor_and_covers`. -/
theorem mapsize_floor_and_covers_witness :
    (3 ≤ 262144 / 65536) ∧
    (mapsize 262144 65536 = 262144 / 65536 / 8 + 1 ∧ 3 / 8 < mapsize 262144 65536) :=
  ⟨by decide, mapsize_floor_and_covers 262144 65536 3 (by decide)⟩

/-- C3, counterexample.  With a prior session of size 66048 bytes and a new
snapshot of 66560 bytes (chunk size 65536), the new size exceeds the prior
size, so the claim demands threshold
`last_chunk_addr(66048, 65536) + 65536 = 131072`; but the code computes
`snap2size - 1 = 66559 < 131072` and keeps `snap2size + 1 = 66561`. -/
theorem send_all_from_not_size_compare :
    66560 > 66048 ∧
    send_all_from false 66048 66560 65536 = 66561 ∧
    send_all_from false 66048 66560 65536 ≠ last_chunk_addr 66048 65536 + 65536 := by
  refine ⟨by decide, ?_, ?_⟩ <;> decide

/-- C3, amended: for a non-first session the send-all threshold is
`last_chunk_addr(prior, C) + C` exactly when the new size `v` extends past
the prior session's chunk coverage, i.e. `v > last_chunk_addr(prior, C) + C`
(not merely `v > prior`); otherwise (including shrinkage) it is `v + 1`, in
which case no chunk address below `v` reaches the threshold, so only chunks
whose Delta Map bit is set are emitted.  For a first session it is 0. -/
theorem send_all_from_spec (p v C : Nat) (hC : 0 < C) :
    send_all_from true p v C = 0 ∧
    send_all_from false p v C =
      (if v > last_chunk_addr p C + C then last_chunk_addr p C + C else v + 1) ∧
    (¬ v > last_chunk_addr p C + C →
      ∀ addr, addr < v → addr < send_all_from false p v C) := by
  have hple := self_le_last_chunk_addr_add p C hC
  refine ⟨rfl, ?_, ?_⟩
  · simp only [send_all_from, if_false, Bool.false_eq_true]
    split
    · rename_i hshrink
      rw [if_neg]
      omega
    · rename_i hnoshrink
      split
      · rename_i hgrow
        rw [if_pos]
        omega
      · rename_i hnogrow
        rw [if_neg]
        omega
  · intro hle addr haddr
    have : send_all_from false p v C = v + 1 := by
      simp only [send_all_from, if_false, Bool.false_eq_true]
      split
      · rfl
      · rename_i hnoshrink
        rw [if_neg]
        omega
    omega

/-- C3 witness: concrete instance of `send_all_from_spec` at chunk size
65536, prior size 66048, new size 66560. -/
theorem send_all_from_spec_witness :
    (0 < 65536) ∧
    (send_all_from true 66048 66560 65536 = 0 ∧
     send_all_from false 66048 66560 65536 =
       (if 66560 > last_chunk_addr 66048 65536 + 65536
        then last_chunk_addr 66048 65536 + 65536 else 66560 + 1) ∧
     (¬ 66560 > last_chunk_addr 66048 65536 + 65536 →
       ∀ addr, addr < 66560 → addr < send_all_from false 66048 66560 65536)) :=
  ⟨by decide, send_all_from_spec 66048 66560 65536 (by decide)⟩

/-- C6, counterexample.  The claim bounds the truncated session list by
`65535 - |volumes| - 1` entries; the code slices at
`2^16 - |volumes| - 1 = 65536 - |volumes| - 1`.  With one volume and
65534 global sessions the code keeps all 65534, exceeding the claimed
bound 65533. -/
theorem truncate_sessions_bound_counterexample :
    ¬ ((truncate_sessions (List.replicate 65534 (0 : Nat)) 1).length ≤ 65535 - 1 - 1) := by
  simp only [truncate_sessions, ses_w, List.length_take, List.length_replicate]
  decide

/-- C6, amended: the dedup index variants that pack the session index into
16 bits (index4 and index5) truncate the global session list to at most
`2^16 - |volumes| - 1 = 65536 - |volumes| - 1` entries, so every resulting
session index fits in 16 bits. -/
theorem truncate_sessions_bound {α : Type} (l : List α) (nvols : Nat) :
    (truncate_sessions l nvols).length ≤ 2 ^ (ses_w * 8) - nvols - 1 ∧
    ∀ i, i < (truncate_sessions l nvols).length → i < 2 ^ (ses_w * 8) := by
  constructor
  · simp only [truncate_sessions, List.length_take]
    exact Nat.min_le_left _ _
  · intro i hi
    simp only [truncate_sessions, List.length_take, ses_w] at hi ⊢
    omega

/-- C6 witness: concrete instance of `truncate_sessions_bound`. -/
theorem truncate_sessions_bound_witness :
    (truncate_sessions [0, 1, 2] 1).length ≤ 2 ^ (ses_w * 8) - 1 - 1 ∧
    ∀ i, i < (truncate_sessions [(0 : Nat), 1, 2] 1).length → i < 2 ^ (ses_w * 8) :=
  truncate_sessions_bound [0, 1, 2] 1

/-! The chunk loop of `send_volume` (src lines 893-936).  The loop carries
no state between iterations that affects the manifest or the emitted
chunks, so it is embedded as per-address actions over the address list
`range(0, snap2size, chunksize)`.  The source volume is embedded as a
byte function `byteAt`; `vf.read(chunksize)` at `addr` yields
`min chunksize (volsize - addr)` bytes.  The compression function and the
SHA-256 hex digest are abstract parameters. -/

/-- Parameters of one `send_volume` chunk loop. -/
structure SendParams where
  chunksize : Nat
  volsize : Nat
  sendall_addr : Nat
  bmap : Nat → Nat
  byteAt : Nat → Nat
  compress : List Nat → List Nat
  sha256hex : List Nat → String

/-- Last chunk address for the loop, `lchunk_addr` (src line 840). -/
def SendParams.lchunk (P : SendParams) : Nat :=
  last_chunk_addr P.volsize P.chunksize

/-- Zero chunk constant `zeros = bytes(chunksize)` (src line 837). -/
def zeros (chunksize : Nat) : List Nat := List.replicate chunksize 0

/-- Bytes returned by `vf.seek(addr); vf.read(chunksize)` (src lines 904-905)
on a volume of `volsize` bytes. -/
def read_chunk (byteAt : Nat → Nat) (volsize chunksize addr : Nat) : List Nat :=
  (List.range (min chunksize (volsize - addr))).map (fun j => byteAt (addr + j))

/-- Address list `range(0, snap2size, chunksize)` (src line 893). -/
def chunk_addrs (volsize chunksize : Nat) : List Nat :=
  List.range' 0 ((volsize + chunksize - 1) / chunksize) chunksize

/-- Outcome of one iteration of the chunk loop for an address:
skipped (no manifest line), manifest line `0 x<addr>` with no data, or
manifest line `<hash> x<addr>` plus a streamed payload. -/
inductive SendAction where
  | skip : SendAction
  | zeroLine : Nat → SendAction
  | dataLine : Nat → String → List Nat → SendAction
deriving DecidableEq

/-- One iteration of the chunk loop (src lines 896-936, dedup disabled):
compute `chunk = addr // chunksize`, `bmap_pos = chunk // 8`,
`b = chunk % 8`; emit iff `addr >= sendall_addr or bmap_mm[bmap_pos] &
(1 << b)`; then write `0 x<addr>` and skip the data iff the buffer equals
`zeros` and `addr < lchunk_addr`, else write the hex digest of the
compressed buffer and stream the compressed buffer. -/
def send_chunk (P : SendParams) (addr : Nat) : SendAction :=
  let chunk := addr / P.chunksize
  let bmap_pos := chunk / 8
  let b := chunk % 8
  if addr ≥ P.sendall_addr ∨ (P.bmap bmap_pos).testBit b then
    let buf := read_chunk P.byteAt P.volsize P.chunksize addr
    if buf = zeros P.chunksize ∧ addr < P.lchunk then
      .zeroLine addr
    else
      let cbuf := P.compress buf
      .dataLine addr (P.sha256hex cbuf) cbuf
  else .skip

/-- A manifest line `<hash> x<addr>`; the hash column is the literal "0"
or the hex digest of the compressed chunk. -/
structure ManLine where
  hash : String
  addr : Nat
deriving DecidableEq

/-- Manifest line contributed by one loop iteration. -/
def manLineOf (P : SendParams) (addr : Nat) : Option ManLine :=
  match send_chunk P addr with
  | .skip => none
  | .zeroLine a => some ⟨"0", a⟩
  | .dataLine a h _ => some ⟨h, a⟩

/-- Chunk payload streamed by one loop iteration, keyed by address. -/
def chunkOf (P : SendParams) (addr : Nat) : Option (Nat × List Nat) :=
  match send_chunk P addr with
  | .dataLine a _ p => some (a, p)
  | _ => none

/-- Manifest produced by the chunk loop, in address order. -/
def send_manifest (P : SendParams) : List ManLine :=
  (chunk_addrs P.volsize P.chunksize).filterMap (manLineOf P)

/-- Chunk payloads streamed by the chunk loop, keyed by address. -/
def send_chunks (P : SendParams) : List (Nat × List Nat) :=
  (chunk_addrs P.volsize P.chunksize).filterMap (chunkOf P)

/-- Unfolded form of `send_chunk`. -/
theorem send_chunk_eq (P : SendParams) (a : Nat) :
    send_chunk P a =
      if a ≥ P.sendall_addr ∨ (P.bmap (a / P.chunksize / 8)).testBit (a / P.chunksize % 8) then
        if read_chunk P.byteAt P.volsize P.chunksize a = zeros P.chunksize ∧ a < P.lchunk then
          .zeroLine a
        else
          .dataLine a (P.sha256hex (P.compress (read_chunk P.byteAt P.volsize P.chunksize a)))
            (P.compress (read_chunk P.byteAt P.volsize P.chunksize a))
      else .skip := rfl

/-- Basic facts about loop addresses: each is a multiple of the chunk size,
below the volume size, at most the last chunk address, and a full chunk
fits below the volume size strictly before the last chunk address. -/
theorem chunk_addrs_spec (v C a : Nat) (hC : 0 < C) (ha : a ∈ chunk_addrs v C) :
    a < v ∧ a ≤ last_chunk_addr v C ∧ C ∣ a ∧
      (a < last_chunk_addr v C → a + C ≤ v) := by
  rw [chunk_addrs, List.mem_range'] at ha
  obtain ⟨i, hi, rfl⟩ := ha
  simp only [Nat.zero_add] at *
  rcases Nat.eq_zero_or_pos v with hv | hv
  · subst hv
    have h0 : (0 + C - 1) / C = 0 := Nat.div_eq_of_lt (by omega)
    rw [h0] at hi
    exact absurd hi (Nat.not_lt_zero i)
  have hceil : (v + C - 1) / C = (v - 1) / C + 1 := by
    have hc : v + C - 1 = (v - 1) + C := by omega
    rw [hc, Nat.add_div_right _ hC]
  rw [hceil] at hi
  have hiq : i ≤ (v - 1) / C := by omega
  have hlt : C * i ≤ v - 1 :=
    le_trans (Nat.mul_le_mul_left C hiq) (Nat.mul_div_le _ _)
  have hlc := last_chunk_addr_eq_mul v C
  refine ⟨by omega, ?_, Dvd.intro i rfl, ?_⟩
  · rw [hlc]
    exact Nat.mul_le_mul_left C hiq
  · intro hstrict
    rw [hlc] at hstrict
    have h1 : i < (v - 1) / C := Nat.lt_of_mul_lt_mul_left hstrict
    have h2 : C * (i + 1) ≤ v - 1 :=
      le_trans (Nat.mul_le_mul_left C (by omega)) (Nat.mul_div_le _ _)
    rw [Nat.mul_succ] at h2
    omega

/-- Case analysis for `send_chunk`: the action is a skip, a zero line at
the given address, or a data line at the given address carrying the
digest and payload of the compressed buffer. -/
theorem send_chunk_cases (P : SendParams) (a : Nat) :
    send_chunk P a = .skip ∨
    send_chunk P a = .zeroLine a ∨
    send_chunk P a =
      .dataLine a (P.sha256hex (P.compress (read_chunk P.byteAt P.volsize P.chunksize a)))
        (P.compress (read_chunk P.byteAt P.volsize P.chunksize a)) := by
  rw [send_chunk_eq]
  split
  · split
    · exact Or.inr (Or.inl rfl)
    · exact Or.inr (Or.inr rfl)
  · exact Or.inl rfl

/-- The emission condition: `send_chunk` is not a skip exactly when
`addr >= sendall_addr` or the Delta Map bit of the chunk is set. -/
theorem send_chunk_ne_skip_iff (P : SendParams) (a : Nat) :
    send_chunk P a ≠ .skip ↔
      (a ≥ P.sendall_addr ∨ (P.bmap (a / P.chunksize / 8)).testBit (a / P.chunksize % 8)) := by
  rw [send_chunk_eq]
  split
  · rename_i h1
    split
    · exact iff_of_true (by simp) h1
    · exact iff_of_true (by simp) h1
  · rename_i h1
    exact iff_of_false (by simp) h1

/-- A manifest line contributed at an address has that address and comes
from a non-skip action. -/
theorem manLineOf_some (P : SendParams) (a : Nat) (l : ManLine)
    (h : manLineOf P a = some l) : l.addr = a ∧ send_chunk P a ≠ .skip := by
  rcases send_chunk_cases P a with hc | hc | hc <;>
    simp only [manLineOf, hc, Option.some.injEq] at h
  · exact absurd h (by simp)
  · exact ⟨by rw [← h], by rw [hc]; simp⟩
  · exact ⟨by rw [← h], by rw [hc]; simp⟩

/-- A streamed payload entry at an address has that address as key and
comes from a data-line action. -/
theorem chunkOf_some (P : SendParams) (a : Nat) (pr : Nat × List Nat)
    (h : chunkOf P a = some pr) :
    pr.1 = a ∧ send_chunk P a ≠ .zeroLine a ∧ send_chunk P a ≠ .skip := by
  rcases send_chunk_cases P a with hc | hc | hc <;>
    simp only [chunkOf, hc, Option.some.injEq] at h
  · exact absurd h (by simp)
  · exact absurd h (by simp)
  · exact ⟨by rw [← h], by rw [hc]; simp, by rw [hc]; simp⟩

/-- C1: in the `send_volume` chunk loop, a manifest line is written for a
loop address exactly when the address is at or above the send-all
threshold or the Delta Map bit of its chunk is set; among emitted chunks,
the line is `0 x<addr>` with no payload streamed exactly when the chunk's
bytes are all zero and the address is not the last chunk address, and
otherwise the line carries the digest of the compressed chunk bytes and
that compressed payload is streamed. -/
theorem send_volume_emission (P : SendParams) (hC : 0 < P.chunksize)
    (addr : Nat) (haddr : addr ∈ chunk_addrs P.volsize P.chunksize) :
    ((∃ l ∈ send_manifest P, l.addr = addr) ↔
      (addr ≥ P.sendall_addr ∨
        (P.bmap (addr / P.chunksize / 8)).testBit (addr / P.chunksize % 8))) ∧
    (send_chunk P addr ≠ .skip →
      ((send_chunk P addr = .zeroLine addr ∧ ∀ p, (addr, p) ∉ send_chunks P) ↔
        ((∀ i < P.chunksize, P.byteAt (addr + i) = 0) ∧ addr ≠ P.lchunk))) ∧
    (send_chunk P addr ≠ .skip →
      ¬ ((∀ i < P.chunksize, P.byteAt (addr + i) = 0) ∧ addr ≠ P.lchunk) →
      (ManLine.mk (P.sha256hex (P.compress (read_chunk P.byteAt P.volsize P.chunksize addr))) addr
          ∈ send_manifest P ∧
        (addr, P.compress (read_chunk P.byteAt P.volsize P.chunksize addr)) ∈ send_chunks P)) := by
  obtain ⟨hav, halc, hdvd, hfull⟩ := chunk_addrs_spec P.volsize P.chunksize addr hC haddr
  have hbufzero : addr < P.lchunk →
      (read_chunk P.byteAt P.volsize P.chunksize addr = zeros P.chunksize ↔
        ∀ i < P.chunksize, P.byteAt (addr + i) = 0) := by
    intro hlt
    have hmin : min P.chunksize (P.volsize - addr) = P.chunksize := by
      have := hfull hlt
      omega
    rw [read_chunk, hmin, zeros, List.eq_replicate_iff]
    constructor
    · intro h i hi
      exact h.2 _ (List.mem_map_of_mem _ (List.mem_range.mpr hi))
    · intro hall
      refine ⟨by simp, ?_⟩
      intro b hb
      obtain ⟨j, hj, rfl⟩ := List.mem_map.mp hb
      exact hall j (List.mem_range.mp hj)
  have hzeroCond : (read_chunk P.byteAt P.volsize P.chunksize addr = zeros P.chunksize ∧
      addr < P.lchunk) ↔
      ((∀ i < P.chunksize, P.byteAt (addr + i) = 0) ∧ addr ≠ P.lchunk) := by
    constructor
    · intro h
      exact ⟨(hbufzero h.2).mp h.1, by have := h.2; omega⟩
    · intro h
      have hlt : addr < P.lchunk := by
        have h1 : addr ≠ P.lchunk := h.2
        rw [SendParams.lchunk] at h1 ⊢
        omega
      exact ⟨(hbufzero hlt).mpr h.1, hlt⟩
  refine ⟨?_, ?_, ?_⟩
  · rw [← send_chunk_ne_skip_iff]
    constructor
    · intro h
      obtain ⟨l, hl, hla⟩ := h
      rw [send_manifest, List.mem_filterMap] at hl
      obtain ⟨a, _, hfa⟩ := hl
      obtain ⟨h1, h2⟩ := manLineOf_some P a l hfa
      rw [← hla, h1]
      exact h2
    · intro hns
      rcases send_chunk_cases P addr with h | h | h
      · exact absurd h hns
      · refine ⟨⟨"0", addr⟩, ?_, rfl⟩
        rw [send_manifest, List.mem_filterMap]
        exact ⟨addr, haddr, by simp only [manLineOf, h]⟩
      · refine ⟨⟨P.sha256hex (P.compress (read_chunk P.byteAt P.volsize P.chunksize addr)),
          addr⟩, ?_, rfl⟩
        rw [send_manifest, List.mem_filterMap]
        exact ⟨addr, haddr, by simp only [manLineOf, h]⟩
  · intro hns
    rw [← hzeroCond]
    constructor
    · intro h
      have hz := h.1
      rw [send_chunk_eq] at hz
      split at hz
      · split at hz
        · rename_i hcond
          exact hcond
        · exact absurd hz (by simp)
      · exact absurd hz (by simp)
    · intro hcond
      have hact : send_chunk P addr = .zeroLine addr := by
        rw [send_chunk_eq]
        rw [if_pos ((send_chunk_ne_skip_iff P addr).mp hns), if_pos hcond]
      refine ⟨hact, ?_⟩
      intro p hp
      rw [send_chunks, List.mem_filterMap] at hp
      obtain ⟨a, _, hfa⟩ := hp
      obtain ⟨h1, h2, _⟩ := chunkOf_some P a (addr, p) hfa
      simp only at h1
      rw [h1] at hact
      exact h2 hact
  · intro hns hnz
    rcases send_chunk_cases P addr with h | h | h
    · exact absurd h hns
    · rw [← hzeroCond] at hnz
      rw [send_chunk_eq, if_pos ((send_chunk_ne_skip_iff P addr).mp hns),
        if_neg hnz] at h
      exact absurd h (by simp)
    · constructor
      · rw [send_manifest, List.mem_filterMap]
        exact ⟨addr, haddr, by simp only [manLineOf, h]⟩
      · rw [send_chunks, List.mem_filterMap]
        exact ⟨addr, haddr, by simp only [chunkOf, h]⟩

/-- Reading from an all-zero volume yields the `zeros` buffer whenever a
full chunk fits. -/
theorem read_chunk_zero (volsize C a : Nat) (h : C ≤ volsize - a) :
    read_chunk (fun _ => 0) volsize C a = zeros C := by
  rw [read_chunk, Nat.min_eq_left h, zeros]
  refine List.eq_replicate_iff.mpr ⟨by simp, ?_⟩
  intro b hb
  obtain ⟨j, _, rfl⟩ := List.mem_map.mp hb
  rfl

/-- On an all-zero volume with send-all threshold 0, every loop address
yields the zero manifest line except the last chunk address, which is
compressed, hashed and streamed (the zero shortcut requires
`addr < lchunk_addr`). -/
theorem send_chunk_all_zero (P : SendParams) (hC : 0 < P.chunksize)
    (hs : P.sendall_addr = 0) (hb : ∀ x, P.byteAt x = 0)
    (a : Nat) (ha : a ∈ chunk_addrs P.volsize P.chunksize) :
    send_chunk P a =
      if a = P.lchunk then
        .dataLine a (P.sha256hex (P.compress (read_chunk P.byteAt P.volsize P.chunksize a)))
          (P.compress (read_chunk P.byteAt P.volsize P.chunksize a))
      else .zeroLine a := by
  obtain ⟨hav, halc, hdvd, hfull⟩ := chunk_addrs_spec P.volsize P.chunksize a hC ha
  rw [send_chunk_eq, if_pos (Or.inl (show P.sendall_addr ≤ a by rw [hs]; exact Nat.zero_le a))]
  by_cases hEq : a = P.lchunk
  · rw [if_pos hEq, if_neg]
    intro hcon
    rw [hEq] at hcon
    exact absurd hcon.2 (lt_irrefl _)
  · rw [if_neg hEq]
    have hlt : a < P.lchunk := lt_of_le_of_ne halc hEq
    have hz : read_chunk P.byteAt P.volsize P.chunksize a = zeros P.chunksize := by
      have hmin : min P.chunksize (P.volsize - a) = P.chunksize := by
        have := hfull hlt
        omega
      rw [read_chunk, hmin, zeros]
      refine List.eq_replicate_iff.mpr ⟨by simp, ?_⟩
      intro b hb2
      obtain ⟨j, _, rfl⟩ := List.mem_map.mp hb2
      exact hb _
    rw [if_pos ⟨hz, hlt⟩]

/-- Filtering with a function that always succeeds is a map. -/
theorem filterMap_congr_some {α β : Type} (f : α → Option β) (g : α → β)
    (l : List α) (h : ∀ a ∈ l, f a = some (g a)) : l.filterMap f = l.map g := by
  induction l with
  | nil => rfl
  | cons x xs ih =>
    rw [List.filterMap_cons, h x (List.mem_cons_self x xs), List.map_cons,
      ih (fun a ha => h a (List.mem_cons_of_mem x ha))]

/-- Send parameters for the first send (`send_all`, threshold 0 via
`send_all_from`) of an all-zero 256 MiB volume with 64 KiB chunks; the
Delta Map reads as zero in send-all mode (the code opens `/dev/zero`). -/
def zeroVolumeSend (compress : List Nat → List Nat) (sha256hex : List Nat → String) :
    SendParams :=
  ⟨65536, 268435456, send_all_from true 0 268435456 65536,
    fun _ => 0, fun _ => 0, compress, sha256hex⟩

/-- Last chunk address of the 256 MiB volume. -/
theorem zeroVolumeSend_lchunk (compress : List Nat → List Nat)
    (sha256hex : List Nat → String) :
    (zeroVolumeSend compress sha256hex).lchunk = 268369920 := by
  simp only [SendParams.lchunk, zeroVolumeSend, last_chunk_addr]

/-- The last chunk address is a loop address of the 256 MiB volume. -/
theorem zeroVolumeSend_lchunk_mem :
    (268369920 : Nat) ∈ chunk_addrs 268435456 65536 := by
  rw [chunk_addrs, List.mem_range']
  exact ⟨4095, by norm_num, by norm_num⟩

/-- Action taken by the chunk loop on the all-zero 256 MiB volume. -/
theorem zeroVolumeSend_chunk (compress : List Nat → List Nat)
    (sha256hex : List Nat → String) (a : Nat)
    (ha : a ∈ chunk_addrs 268435456 65536) :
    send_chunk (zeroVolumeSend compress sha256hex) a =
      if a = 268369920 then
        .dataLine a (sha256hex (compress (zeros 65536))) (compress (zeros 65536))
      else .zeroLine a := by
  have hsc := send_chunk_all_zero (zeroVolumeSend compress sha256hex)
    (by norm_num [zeroVolumeSend]) rfl (fun _ => rfl) a ha
  rw [zeroVolumeSend_lchunk] at hsc
  rw [hsc]
  by_cases hEq : a = 268369920
  · rw [if_pos hEq, if_pos hEq]
    have hrd : read_chunk (fun _ => (0 : Nat)) 268435456 65536 a = zeros 65536 := by
      apply read_chunk_zero
      omega
    show SendAction.dataLine a
        (sha256hex (compress (read_chunk (fun _ => 0) 268435456 65536 a)))
        (compress (read_chunk (fun _ => 0) 268435456 65536 a)) = _
    rw [hrd]
  · rw [if_neg hEq, if_neg hEq]

/-- C2, counterexample.  On the first send of an all-zero 256 MiB volume
with 64 KiB chunks (here with identity compression and a fixed digest
function), the final chunk at the last chunk address 268369920 is
compressed, hashed and streamed: the manifest carries a non-`0` hash for
it and the set of emitted chunk payloads is nonempty, contradicting the
claim that all 4096 lines have hash `0` and no chunk files are emitted. -/
theorem zero_volume_first_send_emits_final_chunk :
    (268369920, id (zeros 65536)) ∈ send_chunks (zeroVolumeSend id (fun _ => "h")) ∧
    send_chunks (zeroVolumeSend id (fun _ => "h")) ≠ [] ∧
    ManLine.mk "h" 268369920 ∈ send_manifest (zeroVolumeSend id (fun _ => "h")) := by
  have hsc := zeroVolumeSend_chunk id (fun _ => "h") 268369920 zeroVolumeSend_lchunk_mem
  rw [if_pos rfl] at hsc
  have hmem : (268369920, id (zeros 65536)) ∈ send_chunks (zeroVolumeSend id (fun _ => "h")) := by
    rw [send_chunks, List.mem_filterMap]
    exact ⟨268369920, zeroVolumeSend_lchunk_mem, by rw [chunkOf, hsc]⟩
  refine ⟨hmem, List.ne_nil_of_mem hmem, ?_⟩
  rw [send_manifest, List.mem_filterMap]
  exact ⟨268369920, zeroVolumeSend_lchunk_mem, by rw [manLineOf, hsc]⟩

/-- C2, amended: for the first send of an all-zero 256 MiB volume with
64 KiB chunks, the manifest has 4096 lines of which every line except the
one at the last chunk address has hash `0`; the line at the last chunk
address 268369920 carries the digest of the compressed zero chunk, and
exactly that one chunk payload is emitted. -/
theorem zero_volume_first_send_manifest (compress : List Nat → List Nat)
    (sha256hex : List Nat → String) :
    (send_manifest (zeroVolumeSend compress sha256hex)).length = 4096 ∧
    (∀ l ∈ send_manifest (zeroVolumeSend compress sha256hex),
      l.addr ≠ 268369920 → l.hash = "0") ∧
    ManLine.mk (sha256hex (compress (zeros 65536))) 268369920
      ∈ send_manifest (zeroVolumeSend compress sha256hex) ∧
    send_chunks (zeroVolumeSend compress sha256hex) =
      [(268369920, compress (zeros 65536))] := by
  have hman : send_manifest (zeroVolumeSend compress sha256hex) =
      (chunk_addrs 268435456 65536).map (fun a =>
        if a = 268369920 then ManLine.mk (sha256hex (compress (zeros 65536))) a
        else ManLine.mk "0" a) := by
    rw [send_manifest]
    apply filterMap_congr_some
    intro a ha
    have hsc := zeroVolumeSend_chunk compress sha256hex a ha
    by_cases hEq : a = 268369920
    · rw [if_pos hEq] at hsc
      rw [if_pos hEq, manLineOf, hsc]
    · rw [if_neg hEq] at hsc
      rw [if_neg hEq, manLineOf, hsc]
  have hcount : (268435456 + 65536 - 1) / 65536 = 4096 := by norm_num
  refine ⟨?_, ?_, ?_, ?_⟩
  · rw [hman, List.length_map, chunk_addrs, List.length_range', hcount]
  · intro l hl hlne
    rw [hman] at hl
    obtain ⟨a, _, rfl⟩ := List.mem_map.mp hl
    by_cases hEq : a = 268369920
    · rw [if_pos hEq] at hlne ⊢
      exact absurd hEq (by simpa using hlne)
    · rw [if_neg hEq]
  · rw [hman]
    have := List.mem_map_of_mem (fun a =>
        if a = 268369920 then ManLine.mk (sha256hex (compress (zeros 65536))) a
        else ManLine.mk "0" a) zeroVolumeSend_lchunk_mem
    simpa using this
  · have hsplit : chunk_addrs 268435456 65536 =
        List.range' 0 4095 65536 ++ [268369920] := by
      rw [chunk_addrs, hcount, show (4096 : Nat) = 4095 + 1 from rfl, List.range'_concat]
    have hlast := zeroVolumeSend_chunk compress sha256hex 268369920 zeroVolumeSend_lchunk_mem
    rw [if_pos rfl] at hlast
    have hsplit2 : chunk_addrs (zeroVolumeSend compress sha256hex).volsize
        (zeroVolumeSend compress sha256hex).chunksize =
        List.range' 0 4095 65536 ++ [268369920] := hsplit
    rw [send_chunks, hsplit2, List.filterMap_append]
    have hnil : (List.range' 0 4095 65536).filterMap
        (chunkOf (zeroVolumeSend compress sha256hex)) = [] := by
      rw [List.filterMap_eq_nil_iff]
      intro a ha
      rw [List.mem_range'] at ha
      obtain ⟨i, hi, rfl⟩ := ha
      have hmem : (0 + 65536 * i) ∈ chunk_addrs 268435456 65536 := by
        rw [chunk_addrs, List.mem_range', hcount]
        exact ⟨i, by omega, rfl⟩
      have hne : 0 + 65536 * i ≠ 268369920 := by
        have hle := Nat.mul_le_mul_left 65536 (show i ≤ 4094 by omega)
        norm_num at hle ⊢
        omega
      have hsc := zeroVolumeSend_chunk compress sha256hex _ hmem
      rw [if_neg hne] at hsc
      rw [chunkOf, hsc]
    have hco : chunkOf (zeroVolumeSend compress sha256hex) 268369920 =
        some (268369920, compress (zeros 65536)) := by
      rw [chunkOf, hlast]
    rw [hnil, List.nil_append, List.filterMap_cons, hco, List.filterMap_nil]

/-- Small concrete send parameters: chunk size 4, an 8-byte all-zero
volume, send-all threshold 0, empty Delta Map, identity compression. -/
def smallSend : SendParams :=
  ⟨4, 8, 0, fun _ => 0, fun _ => 0, id, fun _ => "h"⟩

/-- C1 witness: concrete instance of `send_volume_emission` on `smallSend`
at address 0. -/
theorem send_volume_emission_witness :
    (0 < smallSend.chunksize) ∧
    (0 ∈ chunk_addrs smallSend.volsize smallSend.chunksize) ∧
    (((∃ l ∈ send_manifest smallSend, l.addr = 0) ↔
        (0 ≥ smallSend.sendall_addr ∨
          (smallSend.bmap (0 / smallSend.chunksize / 8)).testBit
            (0 / smallSend.chunksize % 8))) ∧
      (send_chunk smallSend 0 ≠ .skip →
        ((send_chunk smallSend 0 = .zeroLine 0 ∧ ∀ p, (0, p) ∉ send_chunks smallSend) ↔
          ((∀ i < smallSend.chunksize, smallSend.byteAt (0 + i) = 0) ∧ 0 ≠ smallSend.lchunk))) ∧
      (send_chunk smallSend 0 ≠ .skip →
        ¬ ((∀ i < smallSend.chunksize, smallSend.byteAt (0 + i) = 0) ∧ 0 ≠ smallSend.lchunk) →
        (ManLine.mk
            (smallSend.sha256hex
              (smallSend.compress
                (read_chunk smallSend.byteAt smallSend.volsize smallSend.chunksize 0))) 0
            ∈ send_manifest smallSend ∧
          (0, smallSend.compress (read_chunk smallSend.byteAt smallSend.volsize smallSend.chunksize 0))
            ∈ send_chunks smallSend))) :=
  ⟨by decide, by decide, send_volume_emission smallSend (by decide) 0 (by decide)⟩

/-- C9: evaluation of the embedded `arch_init` chunk-factor handling at the
failing input `--chunk-factor=-1`.  The code computes
`chunksize = -1 * 65536 = -65536`, the only guard (`> 16 MiB`) does not
fire, and the configuration is saved with a non-positive chunk size
instead of exiting with an error.  A chunk factor of 0 is likewise
accepted silently (the flag is falsy and ignored). -/
theorem arch_init_chunksize_accepts_nonpositive :
    arch_init_chunksize (some (-1)) = .ok (-65536) ∧
    (-65536 : Int) ≤ 0 ∧
    arch_init_chunksize (some 0) = .ok 65536 := by
  refine ⟨?_, by decide, ?_⟩ <;> rfl

/-! The thin-delta translator `update_delta_digest` (src lines 725-779).
The parsed XML elements carry a tag and `begin`/`length` attributes in
thin-block units; the loop walks every 512-byte disk block of each
marked element, accumulating bits for one map byte in `bmap_byte` and
flushing the accumulator into the mmap at `lastindex` whenever the byte
position changes, with a final flush after the loop.  The mmap is
embedded as a byte function; the `dnewblocks`/`dfreedblocks` counters
only feed progress output and are omitted. -/

/-- One `diff` child element of the thin-delta XML. -/
structure DeltaElem where
  tag : String
  begin : Nat
  length : Nat

/-- Loop state of `update_delta_digest`: the mmapped bitmap plus the
write-combining accumulator `bmap_byte` and its byte index `lastindex`. -/
structure DigestState where
  bmap : Nat → Nat
  bmap_byte : Nat
  lastindex : Nat

/-- Byte store update, `bmap_mm[i] = v` on a byte function. -/
def updByte (m : Nat → Nat) (i v : Nat) : Nat → Nat :=
  fun j => if j = i then v else m j

/-- Body of the inner loop (src lines 762-769) for one `blockpos`:
`volsegment = blockpos // (chunksize // bs)`, `bmap_pos = volsegment // 8`;
if the byte position moved, flush `bmap_mm[lastindex] |= bmap_byte` and
reset the accumulator; then `bmap_byte |= 1 << (volsegment % 8)` and
`lastindex = bmap_pos`.  The two paths of the straight-line Python are
written out as records. -/
def stepBlock (chunksize : Nat) (st : DigestState) (blockpos : Nat) : DigestState :=
  let volsegment := blockpos / (chunksize / bs)
  let bmap_pos := volsegment / 8
  if bmap_pos ≠ st.lastindex then
    { bmap := updByte st.bmap st.lastindex (st.bmap st.lastindex ||| st.bmap_byte),
      bmap_byte := 0 ||| 1 <<< (volsegment % 8),
      lastindex := bmap_pos }
  else
    { bmap := st.bmap,
      bmap_byte := st.bmap_byte ||| 1 <<< (volsegment % 8),
      lastindex := bmap_pos }

/-- Processing of one XML element (src lines 748-769): elements tagged
`different`, `right_only` or `left_only` walk
`range(begin*dblocksize, begin*dblocksize + length*dblocksize)`;
any other tag (`same` included) is skipped by `continue`. -/
def stepElem (chunksize dblocksize : Nat) (st : DigestState) (e : DeltaElem) : DigestState :=
  let blockbegin := e.begin * dblocksize
  let blocklen := e.length * dblocksize
  if e.tag = "different" ∨ e.tag = "right_only" ∨ e.tag = "left_only" then
    (List.range' blockbegin blocklen).foldl (stepBlock chunksize) st
  else st

/-- The whole translation loop of `update_delta_digest` (src lines
748-771), including the final flush `bmap_mm[lastindex] |= bmap_byte`
after the element loop.  `bmap_byte` and `lastindex` start at 0
(src lines 739-740). -/
def update_delta_digest (chunksize dblocksize : Nat) (elems : List DeltaElem)
    (bmap0 : Nat → Nat) : Nat → Nat :=
  let st := elems.foldl (stepElem chunksize dblocksize) ⟨bmap0, 0, 0⟩
  updByte st.bmap st.lastindex (st.bmap st.lastindex ||| st.bmap_byte)

/-- Delta Map bit of chunk `k`: bit `k % 8` of byte `k / 8`. -/
def mapBit (m : Nat → Nat) (k : Nat) : Bool :=
  (m (k / 8)).testBit (k % 8)

/-- The bitmap as it would read after flushing the pending accumulator. -/
def effByte (st : DigestState) (i : Nat) : Nat :=
  if i = st.lastindex then st.bmap i ||| st.bmap_byte else st.bmap i

/-- One block step ORs exactly the bit of `volsegment` into the effective
bitmap. -/
theorem effByte_stepBlock (C : Nat) (st : DigestState) (p i : Nat) :
    effByte (stepBlock C st p) i =
      if i = p / (C / bs) / 8 then effByte st i ||| 1 <<< (p / (C / bs) % 8)
      else effByte st i := by
  simp only [stepBlock]
  split
  · rename_i hne
    simp only [effByte, updByte]
    by_cases hi : i = p / (C / bs) / 8
    · rw [if_pos hi, if_pos hi, if_neg (fun h => hne (hi.symm.trans h)),
        if_neg (fun h => hne (hi.symm.trans h)), Nat.zero_or]
    · rw [if_neg hi, if_neg hi]
      by_cases hil : i = st.lastindex
      · rw [if_pos hil, if_pos hil, hil]
      · rw [if_neg hil, if_neg hil]
  · rename_i heq
    rw [Classical.not_not] at heq
    simp only [effByte]
    by_cases hi : i = p / (C / bs) / 8
    · rw [if_pos hi, if_pos hi, if_pos (hi.trans heq), Nat.or_assoc]
    · rw [if_neg hi, if_neg hi, if_neg (fun h => hi (h.trans heq.symm))]

/-- Bit-level form of `effByte_stepBlock`: the bit of chunk `k` after a
block step is its previous value ORed with whether the block lies in
chunk `k`. -/
theorem mapBit_stepBlock (C : Nat) (st : DigestState) (p k : Nat) :
    mapBit (effByte (stepBlock C st p)) k =
      (mapBit (effByte st) k || decide (p / (C / bs) = k)) := by
  rw [mapBit, mapBit, effByte_stepBlock]
  by_cases hb : k / 8 = p / (C / bs) / 8
  · rw [if_pos hb, Nat.testBit_or, Nat.one_shiftLeft, Nat.testBit_two_pow]
    congr 1
    have h1 := Nat.div_add_mod k 8
    have h2 := Nat.div_add_mod (p / (C / bs)) 8
    exact decide_eq_decide.mpr (by omega)
  · rw [if_neg hb]
    have hnk : ¬ p / (C / bs) = k := fun h => hb (by rw [h])
    simp [hnk]

/-- Folding the block loop over a list ORs in the bit of every chunk hit
by a block of the list. -/
theorem mapBit_foldl_blocks (C : Nat) (l : List Nat) (st : DigestState) (k : Nat) :
    mapBit (effByte (l.foldl (stepBlock C) st)) k =
      (mapBit (effByte st) k || l.any (fun p => decide (p / (C / bs) = k))) := by
  induction l generalizing st with
  | nil => simp
  | cons x xs ih =>
    rw [List.foldl_cons, ih, mapBit_stepBlock, List.any_cons, Bool.or_assoc]

/-- Folding the element loop ORs in the bit of every chunk hit by a block
of a marked element. -/
theorem mapBit_foldl_elems (C dbs : Nat) (es : List DeltaElem) (st : DigestState) (k : Nat) :
    mapBit (effByte (es.foldl (stepElem C dbs) st)) k =
      (mapBit (effByte st) k ||
        es.any (fun e =>
          decide (e.tag = "different" ∨ e.tag = "right_only" ∨ e.tag = "left_only") &&
          (List.range' (e.begin * dbs) (e.length * dbs)).any
            (fun p => decide (p / (C / bs) = k)))) := by
  induction es generalizing st with
  | nil => simp
  | cons e es ih =>
    rw [List.foldl_cons, ih, List.any_cons]
    by_cases hm : e.tag = "different" ∨ e.tag = "right_only" ∨ e.tag = "left_only"
    · have hstep : stepElem C dbs st e =
          (List.range' (e.begin * dbs) (e.length * dbs)).foldl (stepBlock C) st := by
        rw [stepElem, if_pos hm]
      rw [hstep, mapBit_foldl_blocks, decide_eq_true hm, Bool.true_and, Bool.or_assoc]
    · have hstep : stepElem C dbs st e = st := by
        rw [stepElem, if_neg hm]
      rw [hstep, decide_eq_false hm, Bool.false_and, Bool.false_or]

/-- The returned map of `update_delta_digest` is the effective map of the
final loop state. -/
theorem mapBit_update_delta_digest (C dbs : Nat) (es : List DeltaElem)
    (bmap0 : Nat → Nat) (k : Nat) :
    mapBit (update_delta_digest C dbs es bmap0) k =
      mapBit (effByte (es.foldl (stepElem C dbs) ⟨bmap0, 0, 0⟩)) k := by
  rw [update_delta_digest, mapBit, mapBit, updByte, effByte]
  by_cases h : k / 8 = (List.foldl (stepElem C dbs) ⟨bmap0, 0, 0⟩ es).lastindex
  · rw [if_pos h, if_pos h, h]
  · rw [if_neg h, if_neg h]

/-- C5: `update_delta_digest` sets the Delta Map bit of chunk `k` exactly
when it was already set or some element tagged `different`, `right_only`
or `left_only` covers a byte of chunk `k`, i.e. some byte `x` with
`begin*dbs*512 <= x < (begin+length)*dbs*512` and `x / chunksize = k`;
elements with any other tag (`same` included) leave the map unchanged. -/
theorem update_delta_digest_marks (C dbs : Nat) (hC : bs ∣ C) (hCpos : 0 < C)
    (es : List DeltaElem) (bmap0 : Nat → Nat) (k : Nat) :
    (mapBit (update_delta_digest C dbs es bmap0) k = true ↔
      (mapBit bmap0 k = true ∨ ∃ e ∈ es,
        (e.tag = "different" ∨ e.tag = "right_only" ∨ e.tag = "left_only") ∧
        ∃ x, e.begin * dbs * bs ≤ x ∧ x < (e.begin + e.length) * dbs * bs ∧
          x / C = k)) := by
  have hbs : 0 < bs := by rw [bs]; omega
  have hmul : C / bs * bs = C := Nat.div_mul_cancel hC
  rw [mapBit_update_delta_digest, mapBit_foldl_elems]
  have hinit : mapBit (effByte ⟨bmap0, 0, 0⟩) k = mapBit bmap0 k := by
    rw [mapBit, mapBit, effByte]
    by_cases h0 : k / 8 = 0
    · rw [if_pos h0, Nat.or_zero]
    · rw [if_neg h0]
  rw [hinit, Bool.or_eq_true, List.any_eq_true]
  constructor
  · intro h
    rcases h with h | ⟨e, he, hfe⟩
    · exact Or.inl h
    · rw [Bool.and_eq_true, decide_eq_true_eq, List.any_eq_true] at hfe
      obtain ⟨htag, p, hp, hpk⟩ := hfe
      rw [List.mem_range'_1] at hp
      rw [decide_eq_true_eq] at hpk
      refine Or.inr ⟨e, he, htag, p * bs, ?_, ?_, ?_⟩
      · exact Nat.mul_le_mul_right bs hp.1
      · have h1 : p + 1 ≤ e.begin * dbs + e.length * dbs := hp.2
        calc p * bs < (p + 1) * bs := by
              rw [Nat.succ_mul]
              omega
          _ ≤ (e.begin * dbs + e.length * dbs) * bs := Nat.mul_le_mul_right bs h1
          _ = (e.begin + e.length) * dbs * bs := by ring
      · rw [← hmul, Nat.mul_div_mul_right p (C / bs) hbs]
        exact hpk
  · intro h
    rcases h with h | ⟨e, he, htag, x, hx1, hx2, hxk⟩
    · exact Or.inl h
    · refine Or.inr ⟨e, he, ?_⟩
      rw [Bool.and_eq_true, decide_eq_true_eq, List.any_eq_true]
      refine ⟨htag, x / bs, ?_, ?_⟩
      · rw [List.mem_range'_1]
        constructor
        · rw [Nat.le_div_iff_mul_le hbs]
          exact hx1
        · rw [Nat.div_lt_iff_lt_mul hbs]
          calc x < (e.begin + e.length) * dbs * bs := hx2
            _ = (e.begin * dbs + e.length * dbs) * bs := by ring
      · rw [decide_eq_true_eq, Nat.div_div_eq_div_mul, Nat.mul_comm bs (C / bs), hmul]
        exact hxk

/-- C5 witness: concrete instance of `update_delta_digest_marks` with
chunk size 512, one thin block of 128 sectors marked `different`. -/
theorem update_delta_digest_marks_witness :
    (bs ∣ 512) ∧ (0 < 512) ∧
    (mapBit (update_delta_digest 512 128 [⟨"different", 0, 1⟩] (fun _ => 0)) 3 = true ↔
      (mapBit (fun _ => 0) 3 = true ∨ ∃ e ∈ [(⟨"different", 0, 1⟩ : DeltaElem)],
        (e.tag = "different" ∨ e.tag = "right_only" ∨ e.tag = "left_only") ∧
        ∃ x, e.begin * 128 * bs ≤ x ∧ x < (e.begin + e.length) * 128 * bs ∧
          x / 512 = 3)) :=
  ⟨⟨1, rfl⟩, by decide,
    update_delta_digest_marks 512 128 ⟨1, rfl⟩ (by decide) [⟨"different", 0, 1⟩] (fun _ => 0) 3⟩

/-! The pruning entry point `prune_sessions` (src lines 1411-1483) and
`Volume.delete_session` (src lines 222-237).  Session names are strings
`S_YYYYMMDD-HHMMSS` compared lexicographically; the embedding represents
each name by its rank, an order-preserving translation, with the absent
second date-time (`t2 = ""`, below every name) as `none`.  The strptime
validation of well-formed date-times is presupposed by using ranks.
`volume.sesnames` is insertion-ordered with unique names; `self.last` is
its last element. -/

/-- Outcome of the pruning entry point: an early return without touching
the archive, an error exit (`x_it`), or a merge of `to_prune` into
`target`. -/
inductive PruneOutcome where
  | skipped : PruneOutcome
  | error : PruneOutcome
  | prune : List Nat → Nat → PruneOutcome
deriving DecidableEq

/-- The `t2 <= t1` validation (src lines 1420-1423): an error exit when a
second date-time is given that is not later than the first. -/
def t2_le (t2 : Option Nat) (t1 : Nat) : Bool :=
  match t2 with
  | some v => decide (v ≤ t1)
  | none => false

/-- The recent-session guard's second disjunct (src line 1434): with no
second date-time, `t2` is the empty string, which compares below every
session name. -/
def t2_ge_last (t2 : Option Nat) (last : Nat) : Bool :=
  match t2 with
  | some v => decide (v ≥ last)
  | none => false

/-- Selection of the sessions to prune (src lines 1440-1467):
`--all-before` takes everything strictly before `t1`; a single date-time
selects exactly `t1` when present; a range locates `start` at `t1` (or
the first later session) and `end` just after `t2` (or the last earlier
session, default 0), yielding the slice `sessions[start:end]`. -/
def prune_range (sessions : List Nat) (t1 : Nat) (t2 : Option Nat)
    (allbefore : Bool) : List Nat :=
  if allbefore then sessions.takeWhile (fun s => decide (s < t1))
  else
    match t2 with
    | none => if t1 ∈ sessions then [t1] else []
    | some v =>
      let start := if t1 ∈ sessions then sessions.indexOf t1
                   else sessions.findIdx (fun s => decide (s > t1))
      let stop := if v ∈ sessions then sessions.indexOf v + 1
                  else
                    match sessions.reverse.find? (fun s => decide (s < v)) with
                    | some s => sessions.indexOf s + 1
                    | none => 0
      (sessions.drop start).take (stop - start)

/-- The pruning entry point (src lines 1411-1483): error on a reversed
range; return when fewer than two sessions exist, when the selection
reaches or passes the newest session (src lines 1434-1436), or when the
range selects nothing; error when an attended multi-session prune is not
confirmed; otherwise hand `to_prune` and the following target session to
`merge_sessions`. -/
def prune_sessions (sessions : List Nat) (t1 : Nat) (t2 : Option Nat)
    (allbefore unattended confirmed : Bool) : PruneOutcome :=
  if t2_le t2 t1 then .error
  else if sessions.length < 2 then .skipped
  else if decide (t1 ≥ sessions.getLastD 0) || t2_ge_last t2 (sessions.getLastD 0) then .skipped
  else if prune_range sessions t1 t2 allbefore = [] then .skipped
  else if !unattended && decide ((prune_range sessions t1 t2 allbefore).length > 1)
      && !confirmed then .error
  else .prune (prune_range sessions t1 t2 allbefore)
    (sessions.getD (sessions.indexOf ((prune_range sessions t1 t2 allbefore).getLastD 0) + 1) 0)

/-- `Volume.delete_session` (src lines 222-237) on the session-name list:
deleting the volume's last session raises `NotImplementedError` (`none`);
otherwise the name is removed and the successor session, whose `previous`
pointer the code rewires, is returned. -/
def delete_session (sesnames : List Nat) (last sname : Nat) :
    Option (List Nat × Nat) :=
  if sname = last then none
  else
    let index := sesnames.indexOf sname
    let affected := sesnames.getD (index + 1) 0
    some (sesnames.eraseIdx index, affected)

/-- A slice of a list bounded before its last element misses that
element when it occurs only at the end. -/
theorem not_mem_slice_of_concat (L : List Nat) (b : Nat) (hb : b ∉ L)
    (start stop : Nat) (hstop : stop ≤ L.length) :
    b ∉ ((L ++ [b]).drop start).take (stop - start) := by
  intro hmem
  rw [← List.drop_take] at hmem
  have h1 : b ∈ (L ++ [b]).take stop := List.mem_of_mem_drop hmem
  rw [List.take_append_of_le_length hstop] at h1
  exact hb (List.take_subset stop L h1)

/-- The index of an element other than the trailing one stays below the
length of the prefix. -/
theorem indexOf_concat_lt (L : List Nat) (b x : Nat) (hx : x ∈ L ++ [b])
    (hne : x ≠ b) : (L ++ [b]).indexOf x < L.length := by
  have hxL : x ∈ L := by
    rcases List.mem_append.mp hx with h | h
    · exact h
    · exact absurd (List.mem_singleton.mp h) hne
  rw [List.indexOf_append_of_mem hxL]
  exact List.indexOf_lt_length.mpr hxL

/-- The selected prune range avoids the newest session once the
date-times lie strictly before it. -/
theorem last_not_mem_prune_range (L : List Nat) (b : Nat) (hb : b ∉ L)
    (t1 : Nat) (t2 : Option Nat) (allbefore : Bool)
    (ht1 : t1 < b) (ht2 : ∀ v, t2 = some v → v < b) :
    b ∉ prune_range (L ++ [b]) t1 t2 allbefore := by
  rw [prune_range.eq_def]
  split
  · intro hmem
    have h := List.mem_takeWhile_imp hmem
    rw [decide_eq_true_eq] at h
    omega
  · split
    · split
      · intro hmem
        rw [List.mem_singleton] at hmem
        omega
      · exact List.not_mem_nil b
    · rename_i t2x v
      have hv : v < b := ht2 v rfl
      dsimp only
      apply not_mem_slice_of_concat L b hb
      split
      · rename_i hvmem
        exact indexOf_concat_lt L b v hvmem (by omega)
      · split
        · rename_i s hfind
          have hs1 := List.find?_some hfind
          rw [decide_eq_true_eq] at hs1
          have hs2 : s ∈ L ++ [b] := List.mem_reverse.mp (List.mem_of_find?_eq_some hfind)
          exact indexOf_concat_lt L b s hs2 (by omega)
        · omega

/-- C7: the most recent session is protected.  For every date-time
selection that reaches or passes the newest session name, `prune_sessions`
returns (or error-exits) without pruning anything; in every case where it
does prune, the newest session is not in the pruned range; and
`delete_session` refuses to delete the volume's last session. -/
theorem prune_sessions_protects_last (sessions : List Nat) (t1 : Nat)
    (t2 : Option Nat) (allbefore unattended confirmed : Bool)
    (hnd : sessions.Nodup) :
    ((t1 ≥ sessions.getLastD 0 ∨ (∃ v, t2 = some v ∧ v ≥ sessions.getLastD 0)) →
      prune_sessions sessions t1 t2 allbefore unattended confirmed = .skipped ∨
      prune_sessions sessions t1 t2 allbefore unattended confirmed = .error) ∧
    (∀ tp tgt, prune_sessions sessions t1 t2 allbefore unattended confirmed = .prune tp tgt →
      sessions.getLastD 0 ∉ tp) ∧
    (∀ sesnames last, delete_session sesnames last last = none) := by
  refine ⟨?_, ?_, ?_⟩
  · intro hge
    rw [prune_sessions]
    split
    · exact Or.inr rfl
    · split
      · exact Or.inl rfl
      · rw [if_pos ?_]
        · exact Or.inl rfl
        · rcases hge with h | ⟨v, hv, h⟩
          · rw [Bool.or_eq_true, decide_eq_true_eq]
            exact Or.inl h
          · subst hv
            rw [Bool.or_eq_true]
            refine Or.inr ?_
            rw [t2_ge_last, decide_eq_true_eq]
            exact h
  · intro tp tgt h
    rw [prune_sessions] at h
    split at h
    · exact absurd h (by simp)
    · split at h
      · exact absurd h (by simp)
      · split at h
        · exact absurd h (by simp)
        · split at h
          · exact absurd h (by simp)
          · split at h
            · exact absurd h (by simp)
            · rename_i h1 h2 h3 h4 h5
              cases h
              rcases List.eq_nil_or_concat sessions with rfl | ⟨L, b, hLb⟩
              · exact absurd (by decide) h2
              · rw [List.concat_eq_append] at hLb
                subst hLb
                rw [List.getLastD_concat]
                rw [List.getLastD_concat] at h3
                have hb : b ∉ L := by
                  intro hmem
                  exact (List.nodup_append.mp hnd).2.2 hmem (List.mem_singleton_self b)
                rw [Bool.or_eq_true, not_or, decide_eq_true_eq] at h3
                have ht1 : t1 < b := by omega
                have ht2 : ∀ v, t2 = some v → v < b := by
                  intro v hv
                  subst hv
                  have := h3.2
                  rw [t2_ge_last, decide_eq_true_eq] at this
                  omega
                exact last_not_mem_prune_range L b hb t1 t2 allbefore ht1 ht2
  · intro sesnames last
    rw [delete_session, if_pos rfl]

/-- C7 witness: concrete instance of `prune_sessions_protects_last` on a
two-session volume with `t1` equal to the newest session. -/
theorem prune_sessions_protects_last_witness :
    ([1, 2] : List Nat).Nodup ∧
    (((2 ≥ ([1, 2] : List Nat).getLastD 0 ∨
        (∃ v, (none : Option Nat) = some v ∧ v ≥ ([1, 2] : List Nat).getLastD 0)) →
      prune_sessions [1, 2] 2 none false true true = .skipped ∨
      prune_sessions [1, 2] 2 none false true true = .error) ∧
    (∀ tp tgt, prune_sessions [1, 2] 2 none false true true = .prune tp tgt →
      ([1, 2] : List Nat).getLastD 0 ∉ tp) ∧
    (∀ sesnames last, delete_session sesnames last last = none)) :=
  ⟨by decide, prune_sessions_protects_last [1, 2] 2 none false true true (by decide)⟩

/-! The receive/verify chunk loop of `receive_volume` (src lines
1745-1826), in verify mode (the save/diff destination actions write or
compare the accepted buffer but do not affect control flow through the
loop).  The merged manifest is a list of `(cksum, address)` lines read
one per loop iteration; the helper's reply is a byte stream from which
4-byte big-endian sizes and payloads are read (a short read at end of
stream yields the available bytes, as with Python `read`).  SHA-256 and
decompression are abstract parameters.  `getvol.poll()` is a parameter:
`none` while the helper still runs, `some code` once it exited.  The
Python locals `rc` and `buf` are assigned only inside the non-zero-hash
branch; the embedding tracks assignment with an outer `Option`, and
reading an unassigned local is Python's `NameError`. -/

/-- Big-endian `int.from_bytes` (src line 1756). -/
def fromBytesBE (bytes : List Nat) : Nat :=
  bytes.foldl (fun acc b => acc * 256 + b) 0

/-- Abrupt outcomes of the receive loop and its epilogue: the exceptions
raised at src lines 1751-1753 (`ValueError` on manifest underrun or
name mismatch), 1758-1761, 1775-1777, 1788-1797, 1801-1805, 1820-1824,
plus `NameError` for reading a never-assigned local. -/
inductive RcvErr where
  | manifestShort : RcvErr
  | badFname : RcvErr
  | zeroSize : RcvErr
  | badChunkSize : RcvErr
  | shortRead : RcvErr
  | badHash : RcvErr
  | badLength : RcvErr
  | nameError : RcvErr
  | procError : RcvErr
  | badRange : RcvErr
deriving DecidableEq

/-- State of the receive loop: remaining manifest lines, remaining reply
stream, and the locals `rc`, `buf` and `addr` (each `none` while still
unassigned). -/
structure RcvState where
  manifest : List (String × Nat)
  stream : List Nat
  rc : Option (Option Int)
  buf : Option (List Nat)
  lastAddr : Option Nat

/-- Result of one loop iteration: an exception, a `break`, or the next
state. -/
inductive RcvStep where
  | err : RcvErr → RcvStep
  | cont : RcvState → RcvStep
  | brk : RcvState → RcvStep

/-- One iteration of the receive loop (src lines 1746-1818, verify mode):
read the manifest line and check the address; read the 4-byte size; a
`0`-hash line requires size 0 and skips; otherwise require
`1 <= size <= chunksize + chunksize // 1024`, read the payload, poll the
helper (`break` on a closed stream with no bytes), check the payload
length and hash, decompress, and check the decompressed length against
the chunk size (or the final-chunk remainder at `lchunk_addr`). -/
def rcv_chunk (chunksize lchunk volsize : Nat) (sha256hex : List Nat → String)
    (decompress : List Nat → List Nat) (poll : Option Int)
    (addr : Nat) (st : RcvState) : RcvStep :=
  match st.manifest with
  | [] => .err .manifestShort
  | (cksum, fname) :: rest =>
    if fname ≠ addr then .err .badFname
    else
      let untrusted_size := fromBytesBE (st.stream.take 4)
      let stream1 := st.stream.drop 4
      if cksum = "0" then
        if untrusted_size ≠ 0 then .err .zeroSize
        else .cont { st with manifest := rest, stream := stream1, lastAddr := some addr }
      else if untrusted_size > chunksize + chunksize / 1024 ∨ untrusted_size < 1 then
        .err .badChunkSize
      else
        let untrusted_buf := stream1.take untrusted_size
        let stream2 := stream1.drop untrusted_size
        let st1 : RcvState :=
          { manifest := rest, stream := stream2, rc := some poll,
            buf := st.buf, lastAddr := some addr }
        if poll ≠ none ∧ untrusted_buf.length = 0 then .brk st1
        else if untrusted_buf.length ≠ untrusted_size then .err .shortRead
        else if cksum ≠ sha256hex untrusted_buf then .err .badHash
        else
          let untrusted_decomp := decompress untrusted_buf
          if untrusted_decomp.length ≠ chunksize ∧ addr < lchunk then .err .badLength
          else if addr = lchunk ∧ untrusted_decomp.length ≠ volsize - lchunk then
            .err .badLength
          else .cont { st1 with buf := some untrusted_decomp }

/-- The receive loop over the address list `range(0, volsize, chunksize)`
(src line 1746). -/
def rcv_go (chunksize lchunk volsize : Nat) (sha256hex : List Nat → String)
    (decompress : List Nat → List Nat) (poll : Option Int) :
    List Nat → RcvState → Except RcvErr RcvState
  | [], st => .ok st
  | addr :: rest, st =>
    match rcv_chunk chunksize lchunk volsize sha256hex decompress poll addr st with
    | .err e => .error e
    | .brk st1 => .ok st1
    | .cont st1 => rcv_go chunksize lchunk volsize sha256hex decompress poll rest st1

/-- The verify-mode receive (src lines 1745-1826): run the loop and then
the epilogue `if rc is not None and rc > 0: raise` and
`if addr+len(buf) != volsize: raise`, which reads `rc`, `addr` and `buf`
unconditionally and raises `NameError` when a local was never
assigned. -/
def receive_volume_verify (chunksize volsize : Nat) (sha256hex : List Nat → String)
    (decompress : List Nat → List Nat) (poll : Option Int)
    (manifest : List (String × Nat)) (stream : List Nat) : Except RcvErr Unit :=
  match rcv_go chunksize (last_chunk_addr volsize chunksize) volsize sha256hex decompress
      poll (chunk_addrs volsize chunksize) ⟨manifest, stream, none, none, none⟩ with
  | .error e => .error e
  | .ok st =>
    match st.rc with
    | none => .error .nameError
    | some r =>
      if (match r with | some v => decide (v > 0) | none => false) then .error .procError
      else
        match st.buf, st.lastAddr with
        | some b, some a => if a + b.length ≠ volsize then .error .badRange else .ok ()
        | _, _ => .error .nameError

/-- An all-zero byte list decodes as the integer 0. -/
theorem fromBytesBE_all_zero (l : List Nat) (h : ∀ x ∈ l, x = 0) :
    fromBytesBE l = 0 := by
  induction l with
  | nil => rfl
  | cons x l ih =>
    have hx : x = 0 := h x (List.mem_cons_self x l)
    rw [fromBytesBE, List.foldl_cons, hx]
    exact ih (fun y hy => h y (List.mem_cons_of_mem x hy))

/-- Over a manifest of only `0`-hash lines and an all-zero stream, the
receive loop completes without ever assigning `rc` or `buf`. -/
theorem rcv_go_all_zero (chunksize lchunk volsize : Nat)
    (sha256hex : List Nat → String) (decompress : List Nat → List Nat)
    (poll : Option Int) (addrs : List Nat) (stream : List Nat)
    (hstream : ∀ x ∈ stream, x = 0)
    (rc0 : Option (Option Int)) (buf0 : Option (List Nat)) (la0 : Option Nat) :
    ∃ st, rcv_go chunksize lchunk volsize sha256hex decompress poll addrs
        ⟨addrs.map (fun a => ("0", a)), stream, rc0, buf0, la0⟩ = .ok st ∧
      st.rc = rc0 ∧ st.buf = buf0 := by
  induction addrs generalizing stream la0 with
  | nil => exact ⟨⟨[], stream, rc0, buf0, la0⟩, rfl, rfl, rfl⟩
  | cons a rest ih =>
    have hsize : fromBytesBE (stream.take 4) = 0 :=
      fromBytesBE_all_zero _ (fun x hx => hstream x (List.mem_of_mem_take hx))
    have hchunk : rcv_chunk chunksize lchunk volsize sha256hex decompress poll a
        ⟨(a :: rest).map (fun a => ("0", a)), stream, rc0, buf0, la0⟩ =
        .cont ⟨rest.map (fun a => ("0", a)), stream.drop 4, rc0, buf0, some a⟩ := by
      simp only [List.map_cons, rcv_chunk, hsize]
      simp
    rw [List.map_cons] at hchunk
    rw [List.map_cons, rcv_go, hchunk]
    exact ih (stream.drop 4) (fun x hx => hstream x (List.mem_of_mem_drop hx)) (some a)

/-- C10: when the merged receive manifest contains only zero-hash lines
(every loop address maps to hash `0`) and the helper stream carries only
zero size words, the receive loop never enters the non-zero-hash branch,
so the locals `rc` and `buf` are never assigned and the epilogue that
reads them unconditionally raises `NameError` instead of completing. -/
theorem receive_all_zero_manifest_nameError (chunksize volsize : Nat)
    (sha256hex : List Nat → String) (decompress : List Nat → List Nat)
    (poll : Option Int) (manifest : List (String × Nat)) (stream : List Nat)
    (hman : manifest = (chunk_addrs volsize chunksize).map (fun a => ("0", a)))
    (hstream : ∀ x ∈ stream, x = 0) :
    receive_volume_verify chunksize volsize sha256hex decompress poll manifest stream =
      .error .nameError := by
  subst hman
  obtain ⟨st, hgo, hrc, _⟩ := rcv_go_all_zero chunksize
    (last_chunk_addr volsize chunksize) volsize sha256hex decompress poll
    (chunk_addrs volsize chunksize) stream hstream none none none
  rw [receive_volume_verify, hgo]
  simp only [hrc]

/-- C10 witness: concrete instance of `receive_all_zero_manifest_nameError`
for a one-chunk volume whose only manifest line has hash `0`. -/
theorem receive_all_zero_manifest_nameError_witness :
    ([("0", 0)] = (chunk_addrs 65536 65536).map (fun a => (("0" : String), a))) ∧
    (∀ x ∈ ([] : List Nat), x = 0) ∧
    receive_volume_verify 65536 65536 (fun _ => "h") id none [("0", 0)] [] =
      .error .nameError :=
  ⟨by rfl, by simp,
    receive_all_zero_manifest_nameError 65536 65536 (fun _ => "h") id none
      [("0", 0)] [] (by rfl) (by simp)⟩

/-- C8, counterexample.  The claim (and spec) accept any transmitted size
with `0 <= size <= C + C/1024`, but the code raises `BufferError` for
`size < 1`: at size 0 on a non-zero-hash manifest line the receive
aborts even though 0 lies in the claimed range. -/
theorem receive_size_zero_rejected :
    receive_volume_verify 65536 65536 (fun _ => "h") id none
      [("de", 0)] [0, 0, 0, 0] = .error .badChunkSize ∧
    (0 : Nat) ≤ 0 ∧ (0 : Nat) ≤ 65536 + 65536 / 1024 := by
  refine ⟨?_, by decide, by decide⟩
  rfl

/-- C8, amended: for a manifest entry with a non-zero hash, the
transmitted payload size `s` passes the size gate exactly when
`1 <= s <= C + C/1024`; any size outside that range aborts the receive
with `BufferError` before the payload is read or used. -/
theorem rcv_chunk_size_gate (chunksize lchunk volsize : Nat)
    (sha256hex : List Nat → String) (decompress : List Nat → List Nat)
    (poll : Option Int) (addr : Nat) (cksum : String)
    (rest : List (String × Nat)) (stream : List Nat)
    (rc0 : Option (Option Int)) (buf0 : Option (List Nat)) (la0 : Option Nat)
    (hck : cksum ≠ "0") :
    (rcv_chunk chunksize lchunk volsize sha256hex decompress poll addr
        ⟨(cksum, addr) :: rest, stream, rc0, buf0, la0⟩ = .err .badChunkSize ↔
      ¬ (1 ≤ fromBytesBE (stream.take 4) ∧
         fromBytesBE (stream.take 4) ≤ chunksize + chunksize / 1024)) := by
  simp only [rcv_chunk]
  rw [if_neg (by simp), if_neg hck]
  by_cases hsz : fromBytesBE (stream.take 4) > chunksize + chunksize / 1024 ∨
      fromBytesBE (stream.take 4) < 1
  · rw [if_pos hsz]
    exact iff_of_true rfl (by omega)
  · rw [if_neg hsz]
    refine iff_of_false ?_ (by omega)
    split_ifs <;> simp

/-- C8 witness: concrete instance of `rcv_chunk_size_gate` at size 0. -/
theorem rcv_chunk_size_gate_witness :
    (("de" : String) ≠ "0") ∧
    (rcv_chunk 65536 0 65536 (fun _ => "h") id none 0
        ⟨[("de", 0)], [0, 0, 0, 0], none, none, none⟩ = .err .badChunkSize ↔
      ¬ (1 ≤ fromBytesBE (([0, 0, 0, 0] : List Nat).take 4) ∧
         fromBytesBE (([0, 0, 0, 0] : List Nat).take 4) ≤ 65536 + 65536 / 1024)) :=
  ⟨by decide,
    rcv_chunk_size_gate 65536 0 65536 (fun _ => "h") id none 0 "de" [] [0, 0, 0, 0]
      none none none (by decide)⟩

end Sparsebak
